import Mathlib

/-
Verification of the six-frame ORF scanner of this repository
(notebook cells: frame construction, the ORF while-loop, and the
real-example scan with translation and a minimum-protein-length filter).

The nucleotide sequence is embedded as a `List Char`; a codon is a
`List Char` slice of length at most 3.  The notebook's `while start <
len(frames[i])` loop (with the inner `for stop in range(start+1, ...)`
search) is embedded as a fuel-based recursion whose fuel is always
sufficient, together with an unfolding equation that mirrors one loop
iteration exactly.
-/

namespace ORF

/-- Complement of one nucleotide symbol (A↔T, C↔G); any other symbol is
left unchanged.  Only A/C/G/T inputs are relevant to the claims. -/
def complementBase : Char → Char
  | 'A' => 'T'
  | 'T' => 'A'
  | 'C' => 'G'
  | 'G' => 'C'
  | c => c

/-- Modelled from the spec: `Seq.reverse_complement` is Biopython code and
not part of this repository; the spec defines the reverse complement as
complementing each symbol (A↔T, C↔G) and reversing the order. -/
def reverseComplement (s : List Char) : List Char :=
  (s.map complementBase).reverse

/-- Codon chunking of the notebook's list comprehension
`[seq[i:i+3] for i in range(0, len(seq), 3)]`: slices of length 3
stepping by 3, with the trailing fragment (length 1 or 2) retained. -/
def chunk3 : List Char → List (List Char)
  | [] => []
  | [a] => [[a]]
  | [a, b] => [[a, b]]
  | a :: b :: c :: l => [a, b, c] :: chunk3 l

/-- A strict variant of `chunk3` that follows the spec's §3 Frame
definition instead: a trailing fragment shorter than 3 symbols is
discarded.  Used to compare the code's behaviour with the spec's. -/
def chunk3Strict : List Char → List (List Char)
  | a :: b :: c :: l => [a, b, c] :: chunk3Strict l
  | _ => []

/-- The start-codon test of the scan loop: `frames[i][start]=="ATG"`. -/
def isStart (c : List Char) : Bool := decide (c = ['A', 'T', 'G'])

/-- The stop-codon test of the scan loop:
`frames[i][stop]=="TAA" or frames[i][stop]=="TAG" or frames[i][stop]=="TGA"`. -/
def isStop (c : List Char) : Bool :=
  decide (c = ['T', 'A', 'A']) || decide (c = ['T', 'A', 'G']) ||
    decide (c = ['T', 'G', 'A'])

/-- Fuel-driven form of the inner `for stop in range(start+1, len(frame))`
search: the smallest index `j` at or after the cursor whose codon is a
stop codon. -/
def findStopFuel (f : List (List Char)) : Nat → Nat → Option Nat
  | 0, _ => none
  | fuel + 1, j =>
    if j < f.length then
      if isStop (f.getD j []) then some j
      else findStopFuel f fuel (j + 1)
    else none

/-- Index of the nearest stop codon at index `j` or later in frame `f`
(`none` when no stop codon remains).  The fuel `f.length + 1` always
suffices. -/
def findStop (f : List (List Char)) (j : Nat) : Option Nat :=
  findStopFuel f (f.length + 1) j

/-- Fuel-driven form of the notebook's scan loop over one frame.  One
iteration: if the cursor's codon is `ATG`, search for the nearest stop
codon after it; on success emit the span and set the cursor to
`stop + 1`, then the unconditional `start += 1` at the end of the loop
body moves the cursor once more, so scanning resumes at `stop + 2`. -/
def findOrfsFuel (f : List (List Char)) : Nat → Nat → List (Nat × Nat)
  | 0, _ => []
  | fuel + 1, start =>
    if start < f.length then
      if isStart (f.getD start []) then
        match findStop f (start + 1) with
        | some j => (start, j) :: findOrfsFuel f fuel (j + 2)
        | none => findOrfsFuel f fuel (start + 1)
      else findOrfsFuel f fuel (start + 1)
    else []

/-- The ORF spans emitted by the scan loop on frame `f` starting from
cursor position `start` (the loop starts at 0). -/
def findOrfs (f : List (List Char)) (start : Nat) : List (Nat × Nat) :=
  findOrfsFuel f (f.length + 1) start

/-- The six frames, in the exact order the notebook appends them:
forward offsets 0, 1, 2, then reverse-complement offsets 0, 1, 2. -/
def buildFrames (dna : List Char) : List (List (List Char)) :=
  [chunk3 dna, chunk3 (dna.drop 1), chunk3 (dna.drop 2),
   chunk3 (reverseComplement dna), chunk3 ((reverseComplement dna).drop 1),
   chunk3 ((reverseComplement dna).drop 2)]

/-- The outer `for i in range(0, len(frames))` loop: scan each frame in
order, tagging each span with its frame index. -/
def findOrfsFrames (k : Nat) : List (List (List Char)) → List (Nat × Nat × Nat)
  | [] => []
  | f :: fs => (findOrfs f 0).map (fun sp => (k, sp)) ++ findOrfsFrames (k + 1) fs

/-- All spans of all six frames, in emission order:
frame order first, then ascending start index within a frame. -/
def scanAll (dna : List Char) : List (Nat × Nat × Nat) :=
  findOrfsFrames 0 (buildFrames dna)

/- ### Basic facts about `findStop` -/

theorem findStopFuel_congr (f : List (List Char)) :
    ∀ fuel₁ fuel₂ j, f.length - j < fuel₁ → f.length - j < fuel₂ →
      findStopFuel f fuel₁ j = findStopFuel f fuel₂ j := by
  intro fuel₁
  induction fuel₁ with
  | zero => intro fuel₂ j h₁ _; omega
  | succ n ih =>
    intro fuel₂ j h₁ h₂
    cases fuel₂ with
    | zero => omega
    | succ m =>
      simp only [findStopFuel]
      by_cases hj : j < f.length
      · rw [if_pos hj, if_pos hj]
        by_cases hs : isStop (f.getD j [])
        · rw [if_pos hs, if_pos hs]
        · rw [if_neg hs, if_neg hs]
          exact ih m (j + 1) (by omega) (by omega)
      · rw [if_neg hj, if_neg hj]

theorem findStop_eq (f : List (List Char)) (j : Nat) :
    findStop f j =
      if j < f.length then
        if isStop (f.getD j []) then some j else findStop f (j + 1)
      else none := by
  show findStopFuel f (f.length + 1) j = _
  simp only [findStopFuel]
  by_cases hj : j < f.length
  · rw [if_pos hj, if_pos hj]
    by_cases hs : isStop (f.getD j [])
    · rw [if_pos hs, if_pos hs]
    · rw [if_neg hs, if_neg hs]
      exact findStopFuel_congr f f.length (f.length + 1) (j + 1) (by omega) (by omega)
  · rw [if_neg hj, if_neg hj]

theorem findStopFuel_some (f : List (List Char)) :
    ∀ fuel j k, findStopFuel f fuel j = some k →
      j ≤ k ∧ k < f.length ∧ isStop (f.getD k []) = true := by
  intro fuel
  induction fuel with
  | zero => intro j k h; simp [findStopFuel] at h
  | succ n ih =>
    intro j k h
    simp only [findStopFuel] at h
    by_cases hj : j < f.length
    · simp only [hj, if_true] at h
      by_cases hs : isStop (f.getD j [])
      · simp only [hs, if_true] at h
        obtain rfl : j = k := by
          simpa using h
        exact ⟨Nat.le_refl _, hj, hs⟩
      · simp only [hs, if_false, Bool.false_eq_true] at h
        obtain ⟨h₁, h₂, h₃⟩ := ih (j + 1) k h
        exact ⟨by omega, h₂, h₃⟩
    · simp [hj] at h

theorem findStop_some {f : List (List Char)} {j k : Nat}
    (h : findStop f j = some k) :
    j ≤ k ∧ k < f.length ∧ isStop (f.getD k []) = true :=
  findStopFuel_some f (f.length + 1) j k h

theorem findStop_none_of_le {f : List (List Char)} {j : Nat}
    (h : f.length ≤ j) : findStop f j = none := by
  rw [findStop_eq]
  simp [Nat.not_lt.mpr h]

/- ### Basic facts about `findOrfs` -/

theorem findOrfsFuel_congr (f : List (List Char)) :
    ∀ fuel₁ fuel₂ start, f.length - start < fuel₁ → f.length - start < fuel₂ →
      findOrfsFuel f fuel₁ start = findOrfsFuel f fuel₂ start := by
  intro fuel₁
  induction fuel₁ with
  | zero => intro fuel₂ start h₁ _; omega
  | succ n ih =>
    intro fuel₂ start h₁ h₂
    cases fuel₂ with
    | zero => omega
    | succ m =>
      simp only [findOrfsFuel]
      by_cases hst : start < f.length
      · simp only [hst, if_true]
        by_cases ha : isStart (f.getD start [])
        · simp only [ha, if_true]
          cases hfs : findStop f (start + 1) with
          | some j =>
            obtain ⟨hj₁, hj₂, _⟩ := findStop_some hfs
            have := ih m (j + 2) (by omega) (by omega)
            simp [this]
          | none =>
            exact ih m (start + 1) (by omega) (by omega)
        · simp only [ha, if_false, Bool.false_eq_true]
          exact ih m (start + 1) (by omega) (by omega)
      · simp [hst]

theorem findOrfs_eq (f : List (List Char)) (start : Nat) :
    findOrfs f start =
      if start < f.length then
        if isStart (f.getD start []) then
          match findStop f (start + 1) with
          | some j => (start, j) :: findOrfs f (j + 2)
          | none => findOrfs f (start + 1)
        else findOrfs f (start + 1)
      else [] := by
  show findOrfsFuel f (f.length + 1) start = _
  simp only [findOrfsFuel]
  by_cases hst : start < f.length
  · simp only [hst, if_true]
    by_cases ha : isStart (f.getD start [])
    · simp only [ha, if_true]
      cases hfs : findStop f (start + 1) with
      | some j =>
        obtain ⟨hj₁, hj₂, _⟩ := findStop_some hfs
        have := findOrfsFuel_congr f f.length (f.length + 1) (j + 2) (by omega) (by omega)
        show (start, j) :: findOrfsFuel f f.length (j + 2) =
          (start, j) :: findOrfs f (j + 2)
        rw [this]
        rfl
      | none =>
        exact findOrfsFuel_congr f f.length (f.length + 1) (start + 1) (by omega) (by omega)
    · simp only [ha, if_false, Bool.false_eq_true]
      exact findOrfsFuel_congr f f.length (f.length + 1) (start + 1) (by omega) (by omega)
  · simp [hst]

theorem findOrfs_of_le {f : List (List Char)} {start : Nat}
    (h : f.length ≤ start) : findOrfs f start = [] := by
  rw [findOrfs_eq]
  simp [Nat.not_lt.mpr h]

theorem getD_mem_of_lt {α : Type} {l : List α} {n : Nat} {d : α}
    (h : n < l.length) : l.getD n d ∈ l := by
  induction l generalizing n with
  | nil => simp at h
  | cons a l ih =>
    cases n with
    | zero => simp
    | succ m =>
      simp only [List.getD_cons_succ]
      exact List.mem_cons_of_mem a (ih (by simpa using h))

theorem findOrfsFuel_mem (f : List (List Char)) :
    ∀ fuel start p, p ∈ findOrfsFuel f fuel start →
      start ≤ p.1 ∧ p.1 < f.length ∧ isStart (f.getD p.1 []) = true ∧
        findStop f (p.1 + 1) = some p.2 := by
  intro fuel
  induction fuel with
  | zero => intro start p h; simp [findOrfsFuel] at h
  | succ n ih =>
    intro start p h
    simp only [findOrfsFuel] at h
    by_cases hst : start < f.length
    · rw [if_pos hst] at h
      by_cases ha : isStart (f.getD start [])
      · rw [if_pos ha] at h
        cases hfs : findStop f (start + 1) with
        | some j =>
          simp only [hfs] at h
          cases h with
          | head => exact ⟨Nat.le_refl _, hst, ha, hfs⟩
          | tail _ h =>
            obtain ⟨h₁, h₂, h₃, h₄⟩ := ih (j + 2) p h
            obtain ⟨hj₁, _, _⟩ := findStop_some hfs
            exact ⟨by omega, h₂, h₃, h₄⟩
        | none =>
          simp only [hfs] at h
          obtain ⟨h₁, h₂, h₃, h₄⟩ := ih (start + 1) p h
          exact ⟨by omega, h₂, h₃, h₄⟩
      · rw [if_neg ha] at h
        obtain ⟨h₁, h₂, h₃, h₄⟩ := ih (start + 1) p h
        exact ⟨by omega, h₂, h₃, h₄⟩
    · rw [if_neg hst] at h
      simp at h

theorem findOrfs_mem {f : List (List Char)} {start : Nat} {p : Nat × Nat}
    (h : p ∈ findOrfs f start) :
    start ≤ p.1 ∧ p.1 < f.length ∧ isStart (f.getD p.1 []) = true ∧
      findStop f (p.1 + 1) = some p.2 :=
  findOrfsFuel_mem f (f.length + 1) start p h

theorem findOrfsFuel_sorted (f : List (List Char)) :
    ∀ fuel start,
      List.Pairwise (fun p q : Nat × Nat => p.1 < q.1 ∧ p.2 + 2 ≤ q.1)
        (findOrfsFuel f fuel start) := by
  intro fuel
  induction fuel with
  | zero => intro start; simp [findOrfsFuel]
  | succ n ih =>
    intro start
    simp only [findOrfsFuel]
    by_cases hst : start < f.length
    · rw [if_pos hst]
      by_cases ha : isStart (f.getD start [])
      · rw [if_pos ha]
        cases hfs : findStop f (start + 1) with
        | some j =>
          refine List.Pairwise.cons ?_ (ih (j + 2))
          intro q hq
          obtain ⟨hq₁, _, _, _⟩ := findOrfsFuel_mem f n (j + 2) q hq
          obtain ⟨hj₁, _, _⟩ := findStop_some hfs
          exact ⟨by omega, by omega⟩
        | none => exact ih (start + 1)
      · rw [if_neg ha]
        exact ih (start + 1)
    · rw [if_neg hst]
      simp

theorem findOrfs_sorted (f : List (List Char)) (start : Nat) :
    List.Pairwise (fun p q : Nat × Nat => p.1 < q.1 ∧ p.2 + 2 ≤ q.1)
      (findOrfs f start) :=
  findOrfsFuel_sorted f (f.length + 1) start

theorem findOrfsFuel_no_start {f : List (List Char)}
    (hf : ∀ c ∈ f, isStart c = false) :
    ∀ fuel start, findOrfsFuel f fuel start = [] := by
  intro fuel
  induction fuel with
  | zero => intro start; rfl
  | succ n ih =>
    intro start
    simp only [findOrfsFuel]
    by_cases hst : start < f.length
    · rw [if_pos hst]
      have ha : ¬ isStart (f.getD start []) = true := by
        rw [hf (f.getD start []) (getD_mem_of_lt hst)]
        simp
      rw [if_neg ha]
      exact ih (start + 1)
    · rw [if_neg hst]

theorem findOrfs_no_start {f : List (List Char)}
    (hf : ∀ c ∈ f, isStart c = false) (start : Nat) :
    findOrfs f start = [] :=
  findOrfsFuel_no_start hf (f.length + 1) start

/- ### Concrete sequences used in the closed theorems -/

/-- The sequence ATGTAAATGTAA: two one-codon ORFs whose second start codon
sits immediately after the first stop codon. -/
def dnaC1 : List Char :=
  ['A', 'T', 'G', 'T', 'A', 'A', 'A', 'T', 'G', 'T', 'A', 'A']

/-- The sequence ATGTAAAAAATGTAA: two ORFs separated by a spacer codon. -/
def dnaTwo : List Char :=
  ['A', 'T', 'G', 'T', 'A', 'A', 'A', 'A', 'A', 'A', 'T', 'G', 'T', 'A', 'A']

/-- The sequence ATGAAA: a start codon with no stop codon after it. -/
def dnaNoStop : List Char := ['A', 'T', 'G', 'A', 'A', 'A']

/-- The 39-nt sequence of testable-property Scenario 2:
ATGGCCATTGTAATGGGCCGCTGAAAGGGTGCCCGATAG. -/
def dna6 : List Char :=
  ['A', 'T', 'G', 'G', 'C', 'C', 'A', 'T', 'T', 'G', 'T', 'A', 'A', 'T',
   'G', 'G', 'G', 'C', 'C', 'G', 'C', 'T', 'G', 'A', 'A', 'A', 'G', 'G',
   'G', 'T', 'G', 'C', 'C', 'C', 'G', 'A', 'T', 'A', 'G']

/- ### Claims -/

/-- C1 counterexample: on the frame of ATGTAAATGTAA, the span [0, 1) is
emitted, codon index 2 (= stop index 1 + 1) holds a start codon, yet the
scan does not resume at index 2: resuming there would emit the further
span [2, 3), but the loop's output is [(0, 1)] alone. -/
theorem C1_counterexample :
    findOrfs (chunk3 dnaC1) 0 = [(0, 1)] ∧
    isStart ((chunk3 dnaC1).getD 2 []) = true ∧
    findOrfs (chunk3 dnaC1) (1 + 1) = [(2, 3)] ∧
    findOrfs (chunk3 dnaC1) 0 ≠ (0, 1) :: findOrfs (chunk3 dnaC1) (1 + 1) := by
  decide

/-- C1 (amended): when the scan emits a span [start, j), scanning resumes
at codon index j + 2, not j + 1 — the assignment `start = stop + 1` is
followed by the loop's unconditional `start += 1` — so every later span
begins at an index ≥ j + 2 and a start codon at index j + 1 is never
examined. -/
theorem C1_resume (f : List (List Char)) (start j : Nat)
    (h1 : start < f.length) (h2 : isStart (f.getD start []) = true)
    (h3 : findStop f (start + 1) = some j) :
    findOrfs f start = (start, j) :: findOrfs f (j + 2) ∧
    ∀ p ∈ findOrfs f (j + 2), j + 2 ≤ p.1 := by
  constructor
  · rw [findOrfs_eq, if_pos h1, if_pos h2]
    simp only [h3]
  · intro p hp
    exact (findOrfs_mem hp).1

/-- Witness for C1 (amended) on the ATGTAAATGTAA frame. -/
theorem C1_witness :
    findOrfs (chunk3 dnaC1) 0 = (0, 1) :: findOrfs (chunk3 dnaC1) 3 :=
  (C1_resume (chunk3 dnaC1) 0 1 (by decide) (by decide) (by decide)).1

/-- C5: within one frame the emitted spans are pairwise non-overlapping
and strictly increasing: each span's start index exceeds every earlier
span's start and stop index, and each span's start precedes its stop. -/
theorem C5_spans_sorted (f : List (List Char)) :
    List.Pairwise (fun p q : Nat × Nat => p.1 < q.1 ∧ p.2 < q.1)
      (findOrfs f 0) ∧
    ∀ p ∈ findOrfs f 0, p.1 < p.2 := by
  constructor
  · exact (findOrfs_sorted f 0).imp (fun h => ⟨h.1, by omega⟩)
  · intro p hp
    obtain ⟨-, -, -, hfs⟩ := findOrfs_mem hp
    obtain ⟨h₁, -, -⟩ := findStop_some hfs
    omega

/-- Witness for C5 on a frame with two spans. -/
theorem C5_witness :
    (0, 1) ∈ findOrfs (chunk3 dnaTwo) 0 ∧ (0 : Nat) < 1 :=
  ⟨by decide, (C5_spans_sorted (chunk3 dnaTwo)).2 (0, 1) (by decide)⟩

/-- C6 (Scenario 2): on forward offset 0 of
ATGGCCATTGTAATGGGCCGCTGAAAGGGTGCCCGATAG the scan emits exactly the one
span [0, 7): start codon ATG at codon index 0, nearest stop codon at
index 7, and the internal ATG at codon index 4 opens no second span. -/
theorem C6_scenario2 :
    findOrfs ((buildFrames dna6).getD 0 []) 0 = [(0, 7)] ∧
    isStart (((buildFrames dna6).getD 0 []).getD 0 []) = true ∧
    isStart (((buildFrames dna6).getD 0 []).getD 4 []) = true ∧
    isStop (((buildFrames dna6).getD 0 []).getD 7 []) = true ∧
    findStop ((buildFrames dna6).getD 0 []) 1 = some 7 := by
  decide

/-- C7: a start codon at index i with no stop codon at any later index of
the frame contributes zero spans: no emitted span has start index i. -/
theorem C7_unterminated (f : List (List Char)) (i : Nat)
    (h1 : i < f.length) (h2 : isStart (f.getD i []) = true)
    (h3 : findStop f (i + 1) = none) :
    i ∉ (findOrfs f 0).map Prod.fst := by
  intro hmem
  obtain ⟨p, hp, hfst⟩ := List.mem_map.mp hmem
  obtain ⟨-, -, -, hfs⟩ := findOrfs_mem hp
  rw [hfst] at hfs
  rw [h3] at hfs
  exact Option.noConfusion hfs

/-- Witness for C7 on the single-codon-ORF-less frame of ATGAAA. -/
theorem C7_witness :
    (0 : Nat) ∉ (findOrfs (chunk3 dnaNoStop) 0).map Prod.fst :=
  C7_unterminated (chunk3 dnaNoStop) 0 (by decide) (by decide) (by decide)

/- ### Facts about the codon chunking -/

theorem isStart_iff {c : List Char} : isStart c = true ↔ c = ['A', 'T', 'G'] := by
  simp [isStart]

theorem isStart_eq_false_of_length {c : List Char} (h : c.length ≠ 3) :
    isStart c = false := by
  rw [Bool.eq_false_iff]
  intro hc
  rw [isStart_iff] at hc
  subst hc
  simp at h

theorem isStop_eq_false_of_length {c : List Char} (h : c.length ≠ 3) :
    isStop c = false := by
  have : ¬ isStop c = true := by
    intro hc
    simp only [isStop, Bool.or_eq_true, decide_eq_true_eq] at hc
    rcases hc with (hc | hc) | hc <;> (subst hc; simp at h)
  rw [Bool.eq_false_iff]
  exact this

theorem chunk3_mem_length :
    ∀ l : List Char, ∀ c ∈ chunk3 l, 0 < c.length ∧ c.length ≤ 3 ∧ c.length ≤ l.length
  | [] => by simp [chunk3]
  | [a] => by simp [chunk3]
  | [a, b] => by simp [chunk3]
  | a :: b :: c :: l => by
    intro d hd
    simp only [chunk3] at hd
    cases hd with
    | head => simp
    | tail _ h =>
      obtain ⟨h1, h2, h3⟩ := chunk3_mem_length l d h
      refine ⟨h1, h2, ?_⟩
      simp only [List.length_cons]
      omega

theorem chunk3_not_last :
    ∀ l : List Char, ∀ i : Nat, i + 1 < (chunk3 l).length →
      ((chunk3 l).getD i []).length = 3
  | [] => by simp [chunk3]
  | [a] => by simp [chunk3]
  | [a, b] => by simp [chunk3]
  | a :: b :: c :: l => by
    intro i hi
    cases i with
    | zero => rfl
    | succ m =>
      simp only [chunk3, List.getD_cons_succ]
      apply chunk3_not_last l m
      simpa [chunk3] using hi

theorem chunk3_getD :
    ∀ l : List Char, ∀ i : Nat, i < (chunk3 l).length →
      (chunk3 l).getD i [] = (l.drop (3 * i)).take 3
  | [] => by simp [chunk3]
  | [a] => by
    intro i hi
    simp only [chunk3, List.length_cons, List.length_nil] at hi
    interval_cases i
    rfl
  | [a, b] => by
    intro i hi
    simp only [chunk3, List.length_cons, List.length_nil] at hi
    interval_cases i
    rfl
  | a :: b :: c :: l => by
    intro i hi
    cases i with
    | zero => rfl
    | succ m =>
      simp only [chunk3, List.getD_cons_succ]
      rw [chunk3_getD l m (by simpa [chunk3] using hi)]
      rw [(by ring : 3 * (m + 1) = 3 * m + 1 + 1 + 1)]
      simp only [List.drop_succ_cons]

/- ### C2: trailing fragments in the frames -/

/-- C2 counterexample: for the length-2 sequence AT, the forward offset-0
frame is not empty — it holds the retained fragment AT, whose length is
not 3 — refuting both that every emitted codon has length exactly 3 and
that all six frames of a sequence shorter than 3 symbols are empty. -/
theorem C2_counterexample :
    (['A', 'T'] : List Char).length < 3 ∧
    (buildFrames ['A', 'T']).getD 0 [] = [['A', 'T']] ∧
    (((buildFrames ['A', 'T']).getD 0 []).getD 0 []).length ≠ 3 := by
  decide

/-- C2 (amended): in every frame, every codon except possibly the last has
length exactly 3 and every codon has length 1 to 3 — a trailing fragment
shorter than 3 symbols is retained as the final element rather than
discarded; for every sequence of length < 3 the six frames hold only such
fragments and zero ORFs are found. -/
theorem C2_fragments (dna : List Char) :
    (∀ f ∈ buildFrames dna,
      (∀ i : Nat, i + 1 < f.length → (f.getD i []).length = 3) ∧
      ∀ c ∈ f, 0 < c.length ∧ c.length ≤ 3) ∧
    (dna.length < 3 → scanAll dna = []) := by
  have hsrc : ∀ f ∈ buildFrames dna, ∃ m : List Char,
      f = chunk3 m ∧ m.length ≤ dna.length := by
    intro f hf
    have hrc : (reverseComplement dna).length = dna.length := by
      simp [reverseComplement]
    simp only [buildFrames, List.mem_cons, List.not_mem_nil, or_false] at hf
    rcases hf with rfl | rfl | rfl | rfl | rfl | rfl
    · exact ⟨dna, rfl, Nat.le_refl _⟩
    · exact ⟨dna.drop 1, rfl, by simp⟩
    · exact ⟨dna.drop 2, rfl, by simp⟩
    · exact ⟨reverseComplement dna, rfl, by omega⟩
    · exact ⟨(reverseComplement dna).drop 1, rfl, by simp [hrc]⟩
    · exact ⟨(reverseComplement dna).drop 2, rfl, by simp [hrc]⟩
  constructor
  · intro f hf
    obtain ⟨m, rfl, -⟩ := hsrc f hf
    constructor
    · exact chunk3_not_last m
    · intro c hc
      obtain ⟨h1, h2, -⟩ := chunk3_mem_length m c hc
      exact ⟨h1, h2⟩
  · intro hshort
    have hall : ∀ f ∈ buildFrames dna, findOrfs f 0 = [] := by
      intro f hf
      obtain ⟨m, rfl, hm⟩ := hsrc f hf
      apply findOrfs_no_start
      intro c hc
      obtain ⟨-, -, h3⟩ := chunk3_mem_length m c hc
      exact isStart_eq_false_of_length (by omega)
    simp only [buildFrames, List.mem_cons, List.not_mem_nil, or_false] at hall
    simp only [scanAll, buildFrames, findOrfsFrames]
    rw [hall _ (Or.inl rfl), hall _ (Or.inr (Or.inl rfl)),
      hall _ (Or.inr (Or.inr (Or.inl rfl))),
      hall _ (Or.inr (Or.inr (Or.inr (Or.inl rfl)))),
      hall _ (Or.inr (Or.inr (Or.inr (Or.inr (Or.inl rfl))))),
      hall _ (Or.inr (Or.inr (Or.inr (Or.inr (Or.inr rfl)))))]
    rfl

/-- Witness for C2 (amended): the short sequence AT yields zero ORFs, and
on ACGT the non-final codon of the offset-0 frame has length 3. -/
theorem C2_witness :
    scanAll ['A', 'T'] = [] ∧
    (((buildFrames ['A', 'C', 'G', 'T']).getD 0 []).getD 0 []).length = 3 :=
  ⟨(C2_fragments ['A', 'T']).2 (by decide),
   ((C2_fragments ['A', 'C', 'G', 'T']).1
      ((buildFrames ['A', 'C', 'G', 'T']).getD 0 []) (by decide)).1 0 (by decide)⟩

/- ### C9: reverse-complement round trip -/

/-- C9: for every valid nucleotide sequence over A, C, G, T, taking the
reverse complement twice gives back the original sequence. -/
theorem C9_revcomp (s : List Char)
    (h : ∀ c ∈ s, c = 'A' ∨ c = 'C' ∨ c = 'G' ∨ c = 'T') :
    reverseComplement (reverseComplement s) = s := by
  unfold reverseComplement
  rw [List.map_reverse, List.reverse_reverse, List.map_map]
  conv_rhs => rw [← List.map_id s]
  apply List.map_congr_left
  intro c hc
  rcases h c hc with rfl | rfl | rfl | rfl <;> rfl

/-- Witness for C9 on the Scenario 2 sequence. -/
theorem C9_witness : reverseComplement (reverseComplement dna6) = dna6 :=
  C9_revcomp dna6 (by decide)

/- ### C10: the retained trailing fragment never changes the spans -/

theorem mem_append_tail {f r : List (List Char)} {s : Nat}
    (h1 : f.length ≤ s) (h2 : s < (f ++ r).length) :
    (f ++ r).getD s [] ∈ r := by
  rw [List.getD_append_right f r [] s h1]
  apply getD_mem_of_lt
  simp only [List.length_append] at h2
  omega

theorem findStop_append {f r : List (List Char)}
    (hr : ∀ c ∈ r, isStop c = false) :
    ∀ j, findStop (f ++ r) j = findStop f j := by
  have H : ∀ n j, (f ++ r).length - j ≤ n →
      findStop (f ++ r) j = findStop f j := by
    intro n
    induction n with
    | zero =>
      intro j hj
      have hge : (f ++ r).length ≤ j := by omega
      rw [findStop_none_of_le hge,
        findStop_none_of_le (by simp at hge; omega)]
    | succ n ih =>
      intro j hj
      by_cases hjr : j < (f ++ r).length
      · by_cases hjf : j < f.length
        · rw [findStop_eq (f ++ r), findStop_eq f, if_pos hjr, if_pos hjf,
            List.getD_append f r [] j hjf]
          by_cases hs : isStop (f.getD j [])
          · rw [if_pos hs, if_pos hs]
          · rw [if_neg hs, if_neg hs]
            exact ih (j + 1) (by omega)
        · have hc := hr _ (mem_append_tail (by omega) hjr)
          rw [findStop_eq (f ++ r), if_pos hjr, if_neg (by rw [hc]; simp)]
          rw [ih (j + 1) (by omega)]
          rw [findStop_none_of_le (by omega), findStop_none_of_le (by omega)]
      · rw [findStop_none_of_le (by omega),
          findStop_none_of_le (f := f) (by simp at hjr ⊢; omega)]
  intro j
  exact H ((f ++ r).length - j) j (Nat.le_refl _)

theorem findOrfs_append_tail {f r : List (List Char)}
    (hr : ∀ c ∈ r, isStart c = false) :
    ∀ n s, (f ++ r).length - s ≤ n → f.length ≤ s →
      findOrfs (f ++ r) s = [] := by
  intro n
  induction n with
  | zero =>
    intro s h1 h2
    exact findOrfs_of_le (by omega)
  | succ n ih =>
    intro s h1 h2
    by_cases hs : s < (f ++ r).length
    · have hc := hr _ (mem_append_tail h2 hs)
      rw [findOrfs_eq, if_pos hs, if_neg (by rw [hc]; simp)]
      exact ih (s + 1) (by omega) (by omega)
    · exact findOrfs_of_le (by omega)

theorem findOrfs_append {f r : List (List Char)}
    (hr : ∀ c ∈ r, isStart c = false ∧ isStop c = false) :
    ∀ s, findOrfs (f ++ r) s = findOrfs f s := by
  have hrstart : ∀ c ∈ r, isStart c = false := fun c hc => (hr c hc).1
  have hrstop : ∀ c ∈ r, isStop c = false := fun c hc => (hr c hc).2
  have H : ∀ n s, (f ++ r).length - s ≤ n →
      findOrfs (f ++ r) s = findOrfs f s := by
    intro n
    induction n with
    | zero =>
      intro s h1
      rw [findOrfs_of_le (by omega), findOrfs_of_le (f := f) (by simp at h1 ⊢; omega)]
    | succ n ih =>
      intro s h1
      by_cases hsf : s < f.length
      · have hsr : s < (f ++ r).length := by simp; omega
        rw [findOrfs_eq (f ++ r), findOrfs_eq f, if_pos hsr, if_pos hsf,
          List.getD_append f r [] s hsf]
        by_cases ha : isStart (f.getD s [])
        · rw [if_pos ha, if_pos ha, findStop_append hrstop (s + 1)]
          cases hfs : findStop f (s + 1) with
          | some j =>
            obtain ⟨hj₁, -, -⟩ := findStop_some hfs
            simp only [hfs]
            rw [ih (j + 2) (by omega)]
          | none =>
            simp only [hfs]
            exact ih (s + 1) (by omega)
        · rw [if_neg ha, if_neg ha]
          exact ih (s + 1) (by omega)
      · rw [findOrfs_append_tail hrstart ((f ++ r).length - s) s (Nat.le_refl _)
          (by omega), findOrfs_of_le (by omega)]
  intro s
  exact H ((f ++ r).length - s) s (Nat.le_refl _)

theorem chunk3_decomp :
    ∀ l : List Char, ∃ r : List (List Char),
      chunk3 l = chunk3Strict l ++ r ∧
      ∀ c ∈ r, isStart c = false ∧ isStop c = false
  | [] => ⟨[], by simp [chunk3, chunk3Strict]⟩
  | [a] =>
    ⟨[[a]], by simp [chunk3, chunk3Strict], by
      intro c hc
      simp only [List.mem_singleton] at hc
      subst hc
      exact ⟨isStart_eq_false_of_length (by simp),
        isStop_eq_false_of_length (by simp)⟩⟩
  | [a, b] =>
    ⟨[[a, b]], by simp [chunk3, chunk3Strict], by
      intro c hc
      simp only [List.mem_singleton] at hc
      subst hc
      exact ⟨isStart_eq_false_of_length (by simp),
        isStop_eq_false_of_length (by simp)⟩⟩
  | a :: b :: c :: l => by
    obtain ⟨r, h1, h2⟩ := chunk3_decomp l
    exact ⟨r, by simp [chunk3, chunk3Strict, h1], h2⟩

/-- C10: the spans found on the codon list that retains the trailing
fragment equal the spans found on the codon list with the fragment
discarded — the fragment, being shorter than 3 symbols, never passes the
start-codon or stop-codon equality tests. -/
theorem C10_fragment_irrelevant (l : List Char) :
    findOrfs (chunk3 l) 0 = findOrfs (chunk3Strict l) 0 := by
  obtain ⟨r, h1, h2⟩ := chunk3_decomp l
  rw [h1]
  exact findOrfs_append h2 0

/- ### C4: the six frames, their order, and the scan output order -/

/-- The strand a frame index refers to: frames 0, 1, 2 read the forward
sequence, frames 3, 4, 5 read the reverse complement. -/
def strandOf (dna : List Char) (k : Nat) : List Char :=
  if k < 3 then dna else reverseComplement dna

theorem buildFrames_getD (dna : List Char) (k : Nat) (hk : k < 6) :
    (buildFrames dna).getD k [] = chunk3 ((strandOf dna k).drop (k % 3)) := by
  interval_cases k <;> simp [buildFrames, strandOf]

theorem findOrfsFrames_fst_ge :
    ∀ (fs : List (List (List Char))) (k : Nat) (p : Nat × Nat × Nat),
      p ∈ findOrfsFrames k fs → k ≤ p.1 := by
  intro fs
  induction fs with
  | nil => intro k p h; simp [findOrfsFrames] at h
  | cons f fs ih =>
    intro k p h
    simp only [findOrfsFrames, List.mem_append] at h
    rcases h with h | h
    · obtain ⟨sp, -, rfl⟩ := List.mem_map.mp h
      exact Nat.le_refl _
    · have := ih (k + 1) p h
      omega

theorem findOrfsFrames_pairwise :
    ∀ (fs : List (List (List Char))) (k : Nat),
      List.Pairwise
        (fun p q : Nat × Nat × Nat => p.1 < q.1 ∨ (p.1 = q.1 ∧ p.2.1 < q.2.1))
        (findOrfsFrames k fs) := by
  intro fs
  induction fs with
  | nil => intro k; simp [findOrfsFrames]
  | cons f fs ih =>
    intro k
    simp only [findOrfsFrames]
    rw [List.pairwise_append]
    refine ⟨?_, ih (k + 1), ?_⟩
    · rw [List.pairwise_map]
      exact (findOrfs_sorted f 0).imp (fun h => Or.inr ⟨rfl, h.1⟩)
    · intro a ha b hb
      obtain ⟨sp, -, rfl⟩ := List.mem_map.mp ha
      have := findOrfsFrames_fst_ge fs (k + 1) b hb
      exact Or.inl (by omega)

/-- C4: every sequence yields exactly 6 frames; frame k reads the forward
strand for k < 3 and the reverse complement for k ≥ 3, at offset k mod 3,
its i-th codon being the slice [offset + 3i, offset + 3i + 3); and the
scan output is ordered by frame index first, then by ascending span start
index within each frame. -/
theorem C4_frame_order (dna : List Char) :
    (buildFrames dna).length = 6 ∧
    (∀ k i : Nat, k < 6 → i < ((buildFrames dna).getD k []).length →
      ((buildFrames dna).getD k []).getD i [] =
        ((strandOf dna k).drop (k % 3 + 3 * i)).take 3) ∧
    List.Pairwise
      (fun p q : Nat × Nat × Nat => p.1 < q.1 ∨ (p.1 = q.1 ∧ p.2.1 < q.2.1))
      (scanAll dna) := by
  refine ⟨rfl, ?_, findOrfsFrames_pairwise (buildFrames dna) 0⟩
  intro k i hk hi
  rw [buildFrames_getD dna k hk] at hi ⊢
  rw [chunk3_getD _ i hi, List.drop_drop]

/-- Witness for C4 on the Scenario 2 sequence: the first codon of the
first reverse-complement frame is the first 3-symbol slice of the reverse
complement. -/
theorem C4_witness :
    ((buildFrames dna6).getD 3 []).getD 0 [] =
      ((strandOf dna6 3).drop (3 % 3 + 3 * 0)).take 3 :=
  (C4_frame_order dna6).2.1 3 0 (by decide) (by decide)

/- ### Translation: codon table, policy, end-to-end scan -/

/-- The Python slice `frame[start:stop]` giving the codons of one ORF. -/
def sliceSpan (f : List (List Char)) (sp : Nat × Nat) : List (List Char) :=
  (f.drop sp.1).take (sp.2 - sp.1)

/-- Modelled from the spec: `translate_span` maps each codon of the span
through the codon table; a codon absent from the table is a
TranslationError, rendered as `none` (Biopython's `Seq.translate`, which
the notebook calls, is not part of this repository). -/
def translateSpan (table : List Char → Option Char) :
    List (List Char) → Option (List Char)
  | [] => some []
  | c :: cs =>
    match table c with
    | none => none
    | some a =>
      match translateSpan table cs with
      | none => none
      | some rest => some (a :: rest)

/-- Modelled from the spec: the caller-supplied `on_untranslatable`
policy — skip the offending ORF and continue, or abort the entire scan. -/
inductive Policy
  | skip
  | abort
deriving DecidableEq

/-- Translate the spans of one frame and keep a result exactly when
`len(protein) >= min_protein_length`; an untranslatable span is skipped
or aborts the scan according to the policy. -/
def translateFrame (table : List Char → Option Char) (minLen : Nat)
    (pol : Policy) (k : Nat) (f : List (List Char)) :
    List (Nat × Nat) → Except Unit (List (Nat × (Nat × Nat) × List Char))
  | [] => Except.ok []
  | sp :: sps =>
    match translateSpan table (sliceSpan f sp) with
    | none =>
      match pol with
      | Policy.abort => Except.error ()
      | Policy.skip => translateFrame table minLen pol k f sps
    | some prot =>
      match translateFrame table minLen pol k f sps with
      | Except.error e => Except.error e
      | Except.ok rs =>
        Except.ok (if minLen ≤ prot.length then (k, sp, prot) :: rs else rs)

/-- Scan a list of frames starting at frame index `k`: find the ORFs of
each frame in order and translate them under the policy. -/
def scanFramesT (table : List Char → Option Char) (minLen : Nat)
    (pol : Policy) (k : Nat) :
    List (List (List Char)) → Except Unit (List (Nat × (Nat × Nat) × List Char))
  | [] => Except.ok []
  | f :: fs =>
    match translateFrame table minLen pol k f (findOrfs f 0) with
    | Except.error e => Except.error e
    | Except.ok rs =>
      match scanFramesT table minLen pol (k + 1) fs with
      | Except.error e => Except.error e
      | Except.ok rs2 => Except.ok (rs ++ rs2)

/-- The end-to-end scan: build the six frames, find each frame's ORFs,
translate them, and keep those meeting the minimum protein length. -/
def scan (dna : List Char) (table : List Char → Option Char) (minLen : Nat)
    (pol : Policy) : Except Unit (List (Nat × (Nat × Nat) × List Char)) :=
  scanFramesT table minLen pol 0 (buildFrames dna)

/-- Modelled from the spec: the standard genetic code supplied by the
codon table provider (Biopython), as codon/amino-acid pairs; the three
stop codons carry the sentinel character and codons holding ambiguity
symbols such as N are absent. -/
def codonMap : List (List Char × Char) :=
  [(['T','T','T'],'F'), (['T','T','C'],'F'), (['T','T','A'],'L'), (['T','T','G'],'L'),
   (['C','T','T'],'L'), (['C','T','C'],'L'), (['C','T','A'],'L'), (['C','T','G'],'L'),
   (['A','T','T'],'I'), (['A','T','C'],'I'), (['A','T','A'],'I'), (['A','T','G'],'M'),
   (['G','T','T'],'V'), (['G','T','C'],'V'), (['G','T','A'],'V'), (['G','T','G'],'V'),
   (['T','C','T'],'S'), (['T','C','C'],'S'), (['T','C','A'],'S'), (['T','C','G'],'S'),
   (['C','C','T'],'P'), (['C','C','C'],'P'), (['C','C','A'],'P'), (['C','C','G'],'P'),
   (['A','C','T'],'T'), (['A','C','C'],'T'), (['A','C','A'],'T'), (['A','C','G'],'T'),
   (['G','C','T'],'A'), (['G','C','C'],'A'), (['G','C','A'],'A'), (['G','C','G'],'A'),
   (['T','A','T'],'Y'), (['T','A','C'],'Y'), (['T','A','A'],'*'), (['T','A','G'],'*'),
   (['C','A','T'],'H'), (['C','A','C'],'H'), (['C','A','A'],'Q'), (['C','A','G'],'Q'),
   (['A','A','T'],'N'), (['A','A','C'],'N'), (['A','A','A'],'K'), (['A','A','G'],'K'),
   (['G','A','T'],'D'), (['G','A','C'],'D'), (['G','A','A'],'E'), (['G','A','G'],'E'),
   (['T','G','T'],'C'), (['T','G','C'],'C'), (['T','G','A'],'*'), (['T','G','G'],'W'),
   (['C','G','T'],'R'), (['C','G','C'],'R'), (['C','G','A'],'R'), (['C','G','G'],'R'),
   (['A','G','T'],'S'), (['A','G','C'],'S'), (['A','G','A'],'R'), (['A','G','G'],'R'),
   (['G','G','T'],'G'), (['G','G','C'],'G'), (['G','G','A'],'G'), (['G','G','G'],'G')]

/-- Lookup in the standard codon table. -/
def stdTable (c : List Char) : Option Char :=
  match codonMap.find? (fun p => decide (p.1 = c)) with
  | some p => some p.2
  | none => none

/-- ATGAANTAAAAAATGGCCTAA: frame 0 holds the untranslatable ORF [0, 2)
(its second codon AAN contains N) and the translatable ORF [4, 6). -/
def dnaN : List Char :=
  ['A','T','G','A','A','N','T','A','A','A','A','A','A','T','G','G','C','C','T','A','A']

/-- ATGGCCGCCTAAAAAATGTAA: frame 0 holds a 3-codon ORF [0, 3) and a
1-codon ORF [5, 6). -/
def dna8 : List Char :=
  ['A','T','G','G','C','C','G','C','C','T','A','A','A','A','A','A','T','G','T','A','A']

/- ### Facts about translation and the end-to-end scan -/

theorem translateSpan_isSome (table : List Char → Option Char) :
    ∀ codons : List (List Char), (∀ c ∈ codons, (table c).isSome = true) →
      (translateSpan table codons).isSome = true := by
  intro codons
  induction codons with
  | nil => intro _; rfl
  | cons c cs ih =>
    intro h
    have hc := h c (List.mem_cons_self c cs)
    cases htc : table c with
    | none => rw [htc] at hc; simp at hc
    | some a =>
      have hcs := ih (fun d hd => h d (List.mem_cons_of_mem c hd))
      cases hts : translateSpan table cs with
      | none => rw [hts] at hcs; simp at hcs
      | some rest => simp only [translateSpan, htc, hts]; rfl

theorem stdTable_N {c : List Char} (h : 'N' ∈ c) : stdTable c = none := by
  unfold stdTable
  cases hf : codonMap.find? (fun p => decide (p.1 = c)) with
  | none => rfl
  | some p =>
    exfalso
    have hmem := List.mem_of_find?_eq_some hf
    have hp := List.find?_some hf
    rw [decide_eq_true_eq] at hp
    have hnone : ∀ q ∈ codonMap, ('N' : Char) ∉ q.1 := by decide
    exact hnone p hmem (hp ▸ h)

theorem translateFrame_ok (table : List Char → Option Char) (minLen : Nat)
    (pol : Policy) (k : Nat) (f : List (List Char)) :
    ∀ (sps : List (Nat × Nat)) (rs : List (Nat × (Nat × Nat) × List Char)),
      translateFrame table minLen pol k f sps = Except.ok rs →
      ∀ (a : Nat) (b : Nat × Nat) (c : List Char),
        (a, b, c) ∈ rs ↔
          (a = k ∧ b ∈ sps ∧ translateSpan table (sliceSpan f b) = some c ∧
            minLen ≤ c.length) := by
  intro sps
  induction sps with
  | nil =>
    intro rs h a b c
    simp only [translateFrame] at h
    obtain rfl : ([] : List (Nat × (Nat × Nat) × List Char)) = rs := by
      simpa using h
    simp
  | cons sp sps ih =>
    intro rs h a b c
    simp only [translateFrame] at h
    cases hts : translateSpan table (sliceSpan f sp) with
    | none =>
      simp only [hts] at h
      cases pol with
      | abort => simp at h
      | skip =>
        rw [ih rs h a b c]
        constructor
        · rintro ⟨rfl, hb, htr, hlen⟩
          exact ⟨rfl, List.mem_cons_of_mem _ hb, htr, hlen⟩
        · rintro ⟨rfl, hb, htr, hlen⟩
          rcases List.mem_cons.mp hb with rfl | hb'
          · rw [hts] at htr
            exact absurd htr (by simp)
          · exact ⟨rfl, hb', htr, hlen⟩
    | some prot =>
      simp only [hts] at h
      cases hrec : translateFrame table minLen pol k f sps with
      | error e => simp only [hrec] at h; simp at h
      | ok rs0 =>
        simp only [hrec] at h
        have hrs : rs = if minLen ≤ prot.length then (k, sp, prot) :: rs0 else rs0 := by
          simpa using h.symm
        subst hrs
        by_cases hlen : minLen ≤ prot.length
        · rw [if_pos hlen]
          constructor
          · intro hmem
            rcases List.mem_cons.mp hmem with heq | hmem'
            · obtain ⟨rfl, rfl, rfl⟩ : a = k ∧ b = sp ∧ c = prot := by
                simpa [Prod.ext_iff] using heq
              exact ⟨rfl, List.mem_cons_self _ _, hts, hlen⟩
            · obtain ⟨rfl, hb, htr, hl⟩ := (ih rs0 hrec a b c).mp hmem'
              exact ⟨rfl, List.mem_cons_of_mem _ hb, htr, hl⟩
          · rintro ⟨rfl, hb, htr, hl⟩
            rcases List.mem_cons.mp hb with rfl | hb'
            · rw [hts] at htr
              obtain rfl : prot = c := by simpa using htr
              exact List.mem_cons_self _ _
            · exact List.mem_cons_of_mem _ ((ih rs0 hrec a b c).mpr ⟨rfl, hb', htr, hl⟩)
        · rw [if_neg hlen]
          constructor
          · intro hmem
            obtain ⟨rfl, hb, htr, hl⟩ := (ih rs0 hrec a b c).mp hmem
            exact ⟨rfl, List.mem_cons_of_mem _ hb, htr, hl⟩
          · rintro ⟨rfl, hb, htr, hl⟩
            rcases List.mem_cons.mp hb with rfl | hb'
            · rw [hts] at htr
              obtain rfl : prot = c := by simpa using htr
              exact absurd hl hlen
            · exact (ih rs0 hrec a b c).mpr ⟨rfl, hb', htr, hl⟩

theorem scanFramesT_ok (table : List Char → Option Char) (minLen : Nat)
    (pol : Policy) :
    ∀ (fs : List (List (List Char))) (k : Nat)
      (out : List (Nat × (Nat × Nat) × List Char)),
      scanFramesT table minLen pol k fs = Except.ok out →
      ∀ (a : Nat) (b : Nat × Nat) (c : List Char),
        (a, b, c) ∈ out ↔
          ∃ j : Nat, j < fs.length ∧ a = k + j ∧
            b ∈ findOrfs (fs.getD j []) 0 ∧
            translateSpan table (sliceSpan (fs.getD j []) b) = some c ∧
            minLen ≤ c.length := by
  intro fs
  induction fs with
  | nil =>
    intro k out h a b c
    simp only [scanFramesT] at h
    obtain rfl : ([] : List (Nat × (Nat × Nat) × List Char)) = out := by
      simpa using h
    simp
  | cons f fs ih =>
    intro k out h a b c
    simp only [scanFramesT] at h
    cases h1 : translateFrame table minLen pol k f (findOrfs f 0) with
    | error e => simp only [h1] at h; simp at h
    | ok rs =>
      simp only [h1] at h
      cases h2 : scanFramesT table minLen pol (k + 1) fs with
      | error e => simp only [h2] at h; simp at h
      | ok rs2 =>
        simp only [h2] at h
        obtain rfl : rs ++ rs2 = out := by simpa using h
        rw [List.mem_append]
        constructor
        · intro hmem
          rcases hmem with hmem | hmem
          · obtain ⟨rfl, hb, htr, hl⟩ :=
              (translateFrame_ok table minLen pol k f (findOrfs f 0) rs h1 a b c).mp hmem
            exact ⟨0, by simp, by omega, by simpa using hb, by simpa using htr, hl⟩
          · obtain ⟨j, hj, ha, hb, htr, hl⟩ := (ih (k + 1) rs2 h2 a b c).mp hmem
            refine ⟨j + 1, by simp; omega, by omega, ?_, ?_, hl⟩
            · simpa using hb
            · simpa using htr
        · rintro ⟨j, hj, ha, hb, htr, hl⟩
          cases j with
          | zero =>
            left
            apply (translateFrame_ok table minLen pol k f (findOrfs f 0) rs h1 a b c).mpr
            exact ⟨by omega, by simpa using hb, by simpa using htr, hl⟩
          | succ m =>
            right
            apply (ih (k + 1) rs2 h2 a b c).mpr
            refine ⟨m, by simp at hj; omega, by omega, ?_, ?_, hl⟩
            · simpa using hb
            · simpa using htr

theorem translateFrame_skip_ok (table : List Char → Option Char) (minLen : Nat)
    (k : Nat) (f : List (List Char)) :
    ∀ sps : List (Nat × Nat), ∃ rs,
      translateFrame table minLen Policy.skip k f sps = Except.ok rs := by
  intro sps
  induction sps with
  | nil => exact ⟨[], rfl⟩
  | cons sp sps ih =>
    obtain ⟨rs, hrs⟩ := ih
    cases hts : translateSpan table (sliceSpan f sp) with
    | none => exact ⟨rs, by simp only [translateFrame, hts]; exact hrs⟩
    | some prot =>
      refine ⟨if minLen ≤ prot.length then (k, sp, prot) :: rs else rs, ?_⟩
      simp only [translateFrame, hts, hrs]

theorem scanFramesT_skip_ok (table : List Char → Option Char) (minLen : Nat) :
    ∀ (fs : List (List (List Char))) (k : Nat), ∃ out,
      scanFramesT table minLen Policy.skip k fs = Except.ok out := by
  intro fs
  induction fs with
  | nil => intro k; exact ⟨[], rfl⟩
  | cons f fs ih =>
    intro k
    obtain ⟨rs, hrs⟩ := translateFrame_skip_ok table minLen k f (findOrfs f 0)
    obtain ⟨rs2, hrs2⟩ := ih (k + 1)
    exact ⟨rs ++ rs2, by simp only [scanFramesT, hrs, hrs2]⟩

theorem translateFrame_abort (table : List Char → Option Char) (minLen : Nat)
    (k : Nat) (f : List (List Char)) :
    ∀ (sps : List (Nat × Nat)) (sp : Nat × Nat), sp ∈ sps →
      translateSpan table (sliceSpan f sp) = none →
      translateFrame table minLen Policy.abort k f sps = Except.error () := by
  intro sps
  induction sps with
  | nil => intro sp h; simp at h
  | cons sp0 sps ih =>
    intro sp hmem htr
    cases hts : translateSpan table (sliceSpan f sp0) with
    | none => simp only [translateFrame, hts]
    | some prot =>
      rcases List.mem_cons.mp hmem with rfl | hmem'
      · rw [hts] at htr
        exact absurd htr (by simp)
      · simp only [translateFrame, hts, ih sp hmem' htr]

theorem scanFramesT_abort (table : List Char → Option Char) (minLen : Nat) :
    ∀ (fs : List (List (List Char))) (k j : Nat), j < fs.length →
      (∃ sp : Nat × Nat, sp ∈ findOrfs (fs.getD j []) 0 ∧
        translateSpan table (sliceSpan (fs.getD j []) sp) = none) →
      scanFramesT table minLen Policy.abort k fs = Except.error () := by
  intro fs
  induction fs with
  | nil => intro k j hj; simp at hj
  | cons f fs ih =>
    intro k j hj hex
    cases j with
    | zero =>
      obtain ⟨sp, hsp, htr⟩ := hex
      have h0 := translateFrame_abort table minLen k f (findOrfs f 0) sp
        (by simpa using hsp) (by simpa using htr)
      simp only [scanFramesT, h0]
    | succ m =>
      cases h1 : translateFrame table minLen Policy.abort k f (findOrfs f 0) with
      | error e =>
        cases e
        simp only [scanFramesT, h1]
      | ok rs =>
        have h2 := ih (k + 1) m (by simp at hj; omega)
          ⟨hex.choose, by simpa using hex.choose_spec.1, by simpa using hex.choose_spec.2⟩
        simp only [scanFramesT, h1, h2]

/- ### C3 and C8 -/

/-- C3: a span whose codons all have entries in the supplied table
translates successfully; a codon containing N is absent from the standard
table (a TranslationError); under the skip policy the scan never fails,
every returned ORF carries a successful translation (untranslatable ORFs
are omitted), and every qualifying translatable ORF is still returned;
under the abort policy an untranslatable ORF anywhere makes the whole
scan return an error and no results. -/
theorem C3_untranslatable_policy :
    (∀ (table : List Char → Option Char) (codons : List (List Char)),
      (∀ c ∈ codons, (table c).isSome = true) →
      (translateSpan table codons).isSome = true) ∧
    (∀ c : List Char, 'N' ∈ c → stdTable c = none) ∧
    (∀ (dna : List Char) (table : List Char → Option Char) (minLen : Nat)
      (out : List (Nat × (Nat × Nat) × List Char)),
      scan dna table minLen Policy.skip = Except.ok out →
      (∀ r ∈ out,
        translateSpan table (sliceSpan ((buildFrames dna).getD r.1 []) r.2.1) =
          some r.2.2) ∧
      (∀ (k : Nat) (sp : Nat × Nat) (prot : List Char), k < 6 →
        sp ∈ findOrfs ((buildFrames dna).getD k []) 0 →
        translateSpan table (sliceSpan ((buildFrames dna).getD k []) sp) =
          some prot →
        minLen ≤ prot.length → (k, sp, prot) ∈ out)) ∧
    (∀ (dna : List Char) (table : List Char → Option Char) (minLen : Nat),
      scan dna table minLen Policy.skip ≠ Except.error ()) ∧
    (∀ (dna : List Char) (table : List Char → Option Char) (minLen : Nat)
      (k : Nat) (sp : Nat × Nat), k < 6 →
      sp ∈ findOrfs ((buildFrames dna).getD k []) 0 →
      translateSpan table (sliceSpan ((buildFrames dna).getD k []) sp) = none →
      scan dna table minLen Policy.abort = Except.error ()) := by
  refine ⟨translateSpan_isSome, fun c h => stdTable_N h, ?_, ?_, ?_⟩
  · intro dna table minLen out h
    have hchar := scanFramesT_ok table minLen Policy.skip (buildFrames dna) 0 out h
    constructor
    · intro r hr
      obtain ⟨a, b, c⟩ := r
      obtain ⟨j, -, ha, -, htr, -⟩ := (hchar a b c).mp hr
      have hja : j = a := by omega
      subst hja
      exact htr
    · intro k sp prot hk hsp htr hlen
      exact (hchar k sp prot).mpr ⟨k, hk, by omega, hsp, htr, hlen⟩
  · intro dna table minLen h
    obtain ⟨out, hout⟩ := scanFramesT_skip_ok table minLen (buildFrames dna) 0
    have h' : scanFramesT table minLen Policy.skip 0 (buildFrames dna) =
        Except.error () := h
    rw [hout] at h'
    exact Except.noConfusion h'
  · intro dna table minLen k sp hk hsp htr
    exact scanFramesT_abort table minLen (buildFrames dna) 0 k hk ⟨sp, hsp, htr⟩

/-- Witness for C3: on ATGAANTAAAAAATGGCCTAA with the standard table, the
clean span translates, the N-codon is untranslatable, the skip scan
succeeds and still returns the clean ORF [4, 6), and the abort scan
fails. -/
theorem C3_witness :
    (translateSpan stdTable [['A','T','G'], ['G','C','C']]).isSome = true ∧
    stdTable ['A','A','N'] = none ∧
    ((0 : Nat), ((4 : Nat), (6 : Nat)), ['M', 'A']) ∈
      [((0 : Nat), ((4 : Nat), (6 : Nat)), ['M', 'A'])] ∧
    scan dnaN stdTable 1 Policy.skip ≠ Except.error () ∧
    scan dnaN stdTable 1 Policy.abort = Except.error () :=
  ⟨C3_untranslatable_policy.1 stdTable [['A','T','G'], ['G','C','C']] (by decide),
   C3_untranslatable_policy.2.1 ['A','A','N'] (by decide),
   (C3_untranslatable_policy.2.2.1 dnaN stdTable 1
      [((0 : Nat), ((4 : Nat), (6 : Nat)), ['M', 'A'])] (by rfl)).2
     0 (4, 6) ['M', 'A'] (by decide) (by decide) (by decide) (by decide),
   C3_untranslatable_policy.2.2.2.1 dnaN stdTable 1,
   C3_untranslatable_policy.2.2.2.2 dnaN stdTable 1 0 (0, 2)
     (by decide) (by decide) (by decide)⟩

/-- C8: whenever the scan returns results, every returned ORF's protein
meets the minimum length, and a translated ORF of any frame is retained
in the output exactly when its amino-acid count reaches the caller's
minimum protein length. -/
theorem C8_min_protein_filter (dna : List Char) (table : List Char → Option Char)
    (minLen : Nat) (pol : Policy) (out : List (Nat × (Nat × Nat) × List Char))
    (h : scan dna table minLen pol = Except.ok out) :
    (∀ r ∈ out, minLen ≤ r.2.2.length) ∧
    (∀ (k : Nat) (sp : Nat × Nat) (prot : List Char), k < 6 →
      sp ∈ findOrfs ((buildFrames dna).getD k []) 0 →
      translateSpan table (sliceSpan ((buildFrames dna).getD k []) sp) =
        some prot →
      ((k, sp, prot) ∈ out ↔ minLen ≤ prot.length)) := by
  have hchar := scanFramesT_ok table minLen pol (buildFrames dna) 0 out h
  constructor
  · intro r hr
    obtain ⟨a, b, c⟩ := r
    obtain ⟨j, -, -, -, -, hl⟩ := (hchar a b c).mp hr
    exact hl
  · intro k sp prot hk hsp htr
    constructor
    · intro hmem
      obtain ⟨j, -, -, -, -, hl⟩ := (hchar k sp prot).mp hmem
      exact hl
    · intro hl
      exact (hchar k sp prot).mpr ⟨k, hk, by omega, hsp, htr, hl⟩

/-- Witness for C8 on ATGGCCGCCTAAAAAATGTAA with minimum length 2: the
3-residue protein of span [0, 3) is kept, the 1-residue protein of span
[5, 6) is discarded. -/
theorem C8_witness :
    ((0 : Nat), ((0 : Nat), (3 : Nat)), ['M', 'A', 'A']) ∈
      [((0 : Nat), ((0 : Nat), (3 : Nat)), ['M', 'A', 'A'])] ∧
    ((0 : Nat), ((5 : Nat), (6 : Nat)), ['M']) ∉
      [((0 : Nat), ((0 : Nat), (3 : Nat)), ['M', 'A', 'A'])] := by
  have h8 := C8_min_protein_filter dna8 stdTable 2 Policy.skip
    [((0 : Nat), ((0 : Nat), (3 : Nat)), ['M', 'A', 'A'])] (by rfl)
  constructor
  · exact (h8.2 0 (0, 3) ['M', 'A', 'A'] (by decide) (by decide) (by decide)).mpr
      (by decide)
  · intro hmem
    have hle := (h8.2 0 (5, 6) ['M'] (by decide) (by decide) (by decide)).mp hmem
    exact absurd hle (by decide)

end ORF
